import Mathlib

/-!
# Verification of the temporal segmentation and filter-interval engine

Shallow embedding of the core services of the `hollywood_script_generator`
package (video chunk planning, black-frame / silence run-length detection,
interval merging, skip-section store, transcript filtering) together with
proofs of the specified properties.

Real numbers of the source (Python floats) are modelled as rationals `ℚ`,
so all statements are about the algorithms in exact arithmetic.
-/

namespace HSG

/-- Mirrors `SceneChange` from `services/video_chunker.py`. -/
structure SceneChange where
  timestamp : ℚ
  confidence : ℚ
deriving DecidableEq

/-- Mirrors `VideoChunk` from `services/video_chunker.py`
(fields `start_time`, `end_time`, `index`, `has_scene_change`, `scene_changes`;
the `index` field is rendered `idx` here). -/
structure VideoChunk where
  start_time : ℚ
  end_time : ℚ
  idx : ℕ
  has_scene_change : Bool
  scene_changes : List SceneChange
deriving DecidableEq

/-- Configuration state of a constructed `VideoChunker`
(`chunk_duration`, `overlap_duration`, `scene_threshold`). -/
structure VideoChunkerConfig where
  chunk_duration : ℚ
  overlap_duration : ℚ
  scene_threshold : ℚ
deriving DecidableEq

/-- Mirrors `VideoChunker.__init__`: the argument validation performed at
construction.  A `ValueError` raised by the source is modelled as
`Except.error` carrying the message. -/
def videoChunkerInit (chunk_duration overlap_duration scene_threshold : ℚ) :
    Except String VideoChunkerConfig :=
  if chunk_duration ≤ 0 then
    .error "chunk_duration must be positive"
  else if overlap_duration < 0 then
    .error "overlap_duration must be non-negative"
  else if overlap_duration ≥ chunk_duration then
    .error "overlap_duration must be less than chunk_duration"
  else if scene_threshold < 0 ∨ scene_threshold > 1 then
    .error "scene_threshold must be between 0 and 1"
  else
    .ok ⟨chunk_duration, overlap_duration, scene_threshold⟩

/-- Default `scene_threshold` of `VideoChunker.__init__` (`0.3`). -/
def defaultSceneThreshold : ℚ := 3/10

/-- The `while start_time < duration` loop of
`VideoChunker._calculate_chunks`.  `step = chunk_duration - overlap_duration`
is strictly positive for every constructed chunker (enforced by
`videoChunkerInit`), which is exactly what makes the loop terminate. -/
def chunkLoop (chunk_duration step duration : ℚ) (hstep : 0 < step)
    (start_time : ℚ) (i : ℕ) : List VideoChunk :=
  if h : start_time < duration then
    ⟨start_time, min (start_time + chunk_duration) duration, i, false, []⟩ ::
      chunkLoop chunk_duration step duration hstep (start_time + step) (i + 1)
  else
    []
  termination_by (⌈(duration - start_time) / step⌉).toNat
  decreasing_by
    have hne : step ≠ 0 := ne_of_gt hstep
    have h1 : (duration - (start_time + step)) / step =
        (duration - start_time) / step - 1 := by
      field_simp
      ring
    have h2 : (0:ℤ) < ⌈(duration - start_time) / step⌉ :=
      Int.ceil_pos.mpr (div_pos (by linarith) hstep)
    rw [h1, Int.ceil_sub_one]
    omega

/-- Mirrors `VideoChunker._calculate_chunks` for a chunker constructed with
`chunk_duration` and `overlap_duration` (the hypothesis carries the
constructor-established invariant `overlap_duration < chunk_duration`). -/
def calculateChunks (chunk_duration overlap_duration duration : ℚ)
    (h : overlap_duration < chunk_duration) : List VideoChunk :=
  chunkLoop chunk_duration (chunk_duration - overlap_duration) duration
    (by linarith) 0 0

/-- Closed form of the chunk loop: starting at `start_time` it emits one chunk
per step until the start reaches `duration`. -/
theorem chunkLoop_eq_map (c step d : ℚ) (hstep : 0 < step) :
    ∀ (m : ℕ) (start : ℚ) (idx : ℕ),
      (⌈(d - start) / step⌉).toNat = m →
      chunkLoop c step d hstep start idx =
        (List.range m).map
          (fun j => ⟨start + j * step, min (start + j * step + c) d,
            idx + j, false, []⟩) := by
  intro m
  induction m with
  | zero =>
    intro start idx hm
    rw [chunkLoop]
    have hnlt : ¬ start < d := by
      intro hlt
      have hpos : (0:ℤ) < ⌈(d - start) / step⌉ :=
        Int.ceil_pos.mpr (div_pos (by linarith) hstep)
      omega
    simp [hnlt]
  | succ m ih =>
    intro start idx hm
    have hpos : (0:ℤ) < ⌈(d - start) / step⌉ := by omega
    have hlt : start < d := by
      by_contra hge
      have hd1 : (d - start) / step ≤ 0 :=
        div_nonpos_of_nonpos_of_nonneg (by linarith) (le_of_lt hstep)
      have hd2 : ⌈(d - start) / step⌉ ≤ 0 :=
        Int.ceil_le.mpr (by exact_mod_cast hd1)
      omega
    rw [chunkLoop]
    simp only [hlt, dite_true]
    have hne : step ≠ 0 := ne_of_gt hstep
    have hnext : (⌈(d - (start + step)) / step⌉).toNat = m := by
      have h1 : (d - (start + step)) / step = (d - start) / step - 1 := by
        field_simp
        ring
      rw [h1, Int.ceil_sub_one]
      omega
    rw [ih (start + step) (idx + 1) hnext]
    rw [List.range_succ_eq_map, List.map_cons, List.map_map]
    refine List.cons_eq_cons.mpr ⟨?_, ?_⟩
    · simp
    · refine List.map_congr_left ?_
      intro j _
      have harg : start + step + (j:ℚ) * step = start + (((j+1 : ℕ)):ℚ) * step := by
        push_cast
        ring
      have hidx : idx + 1 + j = idx + (j + 1) := by omega
      simp [Function.comp_apply, harg, hidx]

/-- Closed form for `calculateChunks`: the chunk with position `j` starts at
`j * (chunk_duration - overlap_duration)`. -/
theorem calculateChunks_eq_map (c o d : ℚ) (h : o < c) :
    calculateChunks c o d h =
      (List.range (⌈d / (c - o)⌉).toNat).map
        (fun j => ⟨j * (c - o), min (j * (c - o) + c) d, j, false, []⟩) := by
  unfold calculateChunks
  rw [chunkLoop_eq_map c (c - o) d (by linarith) (⌈(d - 0) / (c - o)⌉).toNat 0 0 rfl]
  simp

/-- The number of chunks is `⌈duration / step⌉`. -/
theorem calculateChunks_length (c o d : ℚ) (h : o < c) :
    (calculateChunks c o d h).length = (⌈d / (c - o)⌉).toNat := by
  rw [calculateChunks_eq_map]
  simp

/-- The chunk count is at least one whenever `0 < d`. -/
theorem calculateChunks_pos (c o d : ℚ) (h : o < c) (hd : 0 < d) :
    1 ≤ (⌈d / (c - o)⌉).toNat := by
  have hpos : (0:ℤ) < ⌈d / (c - o)⌉ :=
    Int.ceil_pos.mpr (div_pos hd (by linarith))
  omega

/-- Placeholder chunk used as the default value of list indexing in
statements. -/
def dfltChunk : VideoChunk := ⟨0, 0, 0, false, []⟩

/-- C3: for `total_duration > 0`, `chunk_duration > 0` and
`0 ≤ overlap_duration < chunk_duration`, the planned chunk sequence starts at
exactly `0`, its last chunk ends at exactly `total_duration`, consecutive
chunk starts differ by exactly `chunk_duration - overlap_duration`, and the
indices are `0, 1, 2, ...` in order. -/
theorem claim3_chunk_coverage (c o d : ℚ) (hc : 0 < c) (ho : 0 ≤ o)
    (hoc : o < c) (hd : 0 < d) :
    ((calculateChunks c o d hoc).head?.map VideoChunk.start_time = some 0) ∧
    ((calculateChunks c o d hoc).getLast?.map VideoChunk.end_time = some d) ∧
    (∀ i, i + 1 < (calculateChunks c o d hoc).length →
      ((calculateChunks c o d hoc).getD (i + 1) dfltChunk).start_time =
        ((calculateChunks c o d hoc).getD i dfltChunk).start_time
          + (c - o)) ∧
    (∀ i, i < (calculateChunks c o d hoc).length →
      ((calculateChunks c o d hoc).getD i dfltChunk).idx = i) := by
  have hstep : (0:ℚ) < c - o := by linarith
  obtain ⟨m, hm⟩ : ∃ m, (⌈d / (c - o)⌉).toNat = m + 1 := by
    have := calculateChunks_pos c o d hoc hd
    exact ⟨(⌈d / (c - o)⌉).toNat - 1, by omega⟩
  have hnge : d ≤ ((m:ℚ) + 1) * (c - o) := by
    have h1 : d / (c - o) ≤ ((⌈d / (c - o)⌉ : ℤ) : ℚ) := Int.le_ceil _
    have h2 : ((⌈d / (c - o)⌉ : ℤ) : ℚ) = (m:ℚ) + 1 := by
      have hpos : (0:ℤ) < ⌈d / (c - o)⌉ :=
        Int.ceil_pos.mpr (div_pos hd hstep)
      have : ⌈d / (c - o)⌉ = (m:ℤ) + 1 := by omega
      rw [this]
      push_cast
      ring
    rw [h2] at h1
    calc d = d / (c - o) * (c - o) := by field_simp
    _ ≤ ((m:ℚ) + 1) * (c - o) := by
        exact mul_le_mul_of_nonneg_right h1 (le_of_lt hstep)
  refine ⟨?_, ?_, ?_, ?_⟩
  · rw [calculateChunks_eq_map, hm, List.range_succ_eq_map]
    simp
  · rw [calculateChunks_eq_map, hm, List.range_succ, List.map_append,
      List.map_cons, List.map_nil, List.getLast?_concat]
    have hend : min ((m:ℚ) * (c - o) + c) d = d := by
      apply min_eq_right
      have harith : (m:ℚ) * (c - o) + c = ((m:ℚ) + 1) * (c - o) + o := by ring
      rw [harith]
      linarith
    simp [hend]
  · intro i hi
    rw [calculateChunks_eq_map] at hi ⊢
    simp only [List.length_map, List.length_range] at hi
    rw [List.getD_eq_getElem _ _ (by simpa using hi),
      List.getD_eq_getElem _ _ (by simp; omega)]
    simp only [List.getElem_map, List.getElem_range]
    push_cast
    ring
  · intro i hi
    rw [calculateChunks_eq_map] at hi ⊢
    simp only [List.length_map, List.length_range] at hi
    rw [List.getD_eq_getElem _ _ (by simpa using hi)]
    simp only [List.getElem_map, List.getElem_range]

/-- Witness for C3 at `chunk_duration = 30`, `overlap = 5`, `duration = 60`
(the worked example of the specification). -/
theorem claim3_chunk_coverage_witness :
    ((0:ℚ) < 30 ∧ (0:ℚ) ≤ 5 ∧ (5:ℚ) < 30 ∧ (0:ℚ) < 60) ∧
    (((calculateChunks 30 5 60 (by norm_num)).head?.map VideoChunk.start_time
        = some 0) ∧
     ((calculateChunks 30 5 60 (by norm_num)).getLast?.map VideoChunk.end_time
        = some 60) ∧
     (∀ i, i + 1 < (calculateChunks 30 5 60 (by norm_num)).length →
       ((calculateChunks 30 5 60 (by norm_num)).getD (i + 1) dfltChunk).start_time =
         ((calculateChunks 30 5 60 (by norm_num)).getD i dfltChunk).start_time
           + (30 - 5)) ∧
     (∀ i, i < (calculateChunks 30 5 60 (by norm_num)).length →
       ((calculateChunks 30 5 60 (by norm_num)).getD i dfltChunk).idx = i)) :=
  ⟨⟨by norm_num, by norm_num, by norm_num, by norm_num⟩,
    claim3_chunk_coverage 30 5 60 (by norm_num) (by norm_num) (by norm_num)
      (by norm_num)⟩

/-- C4 counterexample: with `chunk_duration = 30`, `overlap_duration = 25`
(both valid) and `total_duration = 10 ≤ chunk_duration`, the planner produces
TWO chunks (`[0,10)` and `[5,10)`), not one, refuting the claim that
`total_duration ≤ chunk_duration` yields exactly one chunk. -/
theorem claim4_counterexample :
    ((0:ℚ) < 10 ∧ (10:ℚ) ≤ 30 ∧ (0:ℚ) < 30 ∧ (0:ℚ) ≤ 25 ∧ (25:ℚ) < 30) ∧
    (calculateChunks 30 25 10 (by norm_num)).length = 2 := by
  refine ⟨⟨by norm_num, by norm_num, by norm_num, by norm_num, by norm_num⟩, ?_⟩
  rw [calculateChunks_length]
  have h : (10:ℚ) / (30 - 25) = 2 := by norm_num
  rw [h]
  norm_num
  decide

/-- C4 (amended): for `total_duration > 0` with
`total_duration ≤ chunk_duration - overlap_duration` (the step), the planner
produces exactly one chunk covering `[0, total_duration)`. -/
theorem claim4_single_chunk (c o d : ℚ) (hc : 0 < c) (ho : 0 ≤ o)
    (hoc : o < c) (hd : 0 < d) (hsingle : d ≤ c - o) :
    calculateChunks c o d hoc = [⟨0, d, 0, false, []⟩] := by
  have hstep : (0:ℚ) < c - o := by linarith
  have hone : ⌈d / (c - o)⌉ = 1 := by
    have hlb : (0:ℚ) < d / (c - o) := div_pos hd hstep
    have hub : d / (c - o) ≤ 1 := by
      rw [div_le_one hstep]
      exact hsingle
    have h1 : (0:ℤ) < ⌈d / (c - o)⌉ := Int.ceil_pos.mpr hlb
    have h2 : ⌈d / (c - o)⌉ ≤ 1 := by
      apply Int.ceil_le.mpr
      simpa using hub
    omega
  rw [calculateChunks_eq_map, hone]
  have hmin : min ((0:ℚ) * (c - o) + c) d = d := by
    apply min_eq_right
    simp only [zero_mul, zero_add]
    linarith
  simp [List.range_succ, hmin]
  linarith

/-- Witness for the amended C4 at `chunk_duration = 30`, `overlap = 5`,
`duration = 15` (matching the short-video unit test). -/
theorem claim4_single_chunk_witness :
    ((0:ℚ) < 30 ∧ (0:ℚ) ≤ 5 ∧ (5:ℚ) < 30 ∧ (0:ℚ) < 15 ∧ (15:ℚ) ≤ 30 - 5) ∧
    calculateChunks 30 5 15 (by norm_num) = [⟨0, 15, 0, false, []⟩] :=
  ⟨⟨by norm_num, by norm_num, by norm_num, by norm_num, by norm_num⟩,
    claim4_single_chunk 30 5 15 (by norm_num) (by norm_num) (by norm_num)
      (by norm_num) (by norm_num)⟩

/-- C8: with the default `scene_threshold`, constructing the chunk planner
yields a configuration error exactly when `chunk_duration ≤ 0`, or
`overlap_duration < 0`, or `overlap_duration ≥ chunk_duration`; outside those
cases construction succeeds (and an `Except` value has no third outcome). -/
theorem claim8_config_validation (c o : ℚ) :
    (videoChunkerInit c o defaultSceneThreshold = .ok ⟨c, o, defaultSceneThreshold⟩
      ↔ (0 < c ∧ 0 ≤ o ∧ o < c)) ∧
    ((∃ msg, videoChunkerInit c o defaultSceneThreshold = .error msg)
      ↔ (c ≤ 0 ∨ o < 0 ∨ c ≤ o)) := by
  unfold videoChunkerInit
  split_ifs with h1 h2 h3 h4
  · constructor
    · constructor
      · intro h
        exact absurd h (by simp)
      · intro h
        exact absurd h.1 (not_lt.mpr h1)
    · exact ⟨fun _ => Or.inl h1, fun _ => ⟨_, rfl⟩⟩
  · constructor
    · constructor
      · intro h
        exact absurd h (by simp)
      · intro h
        exact absurd h.2.1 (not_le.mpr h2)
    · exact ⟨fun _ => Or.inr (Or.inl h2), fun _ => ⟨_, rfl⟩⟩
  · constructor
    · constructor
      · intro h
        exact absurd h (by simp)
      · intro h
        exact absurd h.2.2 (not_lt.mpr h3)
    · exact ⟨fun _ => Or.inr (Or.inr h3), fun _ => ⟨_, rfl⟩⟩
  · exfalso
    revert h4
    unfold defaultSceneThreshold
    norm_num
  · constructor
    · constructor
      · intro _
        exact ⟨by linarith, by linarith, by linarith⟩
      · intro _
        rfl
    · constructor
      · rintro ⟨msg, hmsg⟩
        exact absurd hmsg (by simp)
      · intro h
        exfalso
        rcases h with h | h | h
        · exact h1 h
        · exact h2 h
        · exact h3 (by linarith)

/-- Mirrors the `DetectionMethod` enum from `services/credits_filter.py`. -/
inductive DetectionMethod where
  | black_frame
  | silence
  | manual
deriving DecidableEq

/-- Mirrors the `FilteredSection` dataclass from `services/credits_filter.py`.
The free-text `notes` field is kept, with the source's formatted strings
reduced to fixed markers where the interpolated numbers are irrelevant. -/
structure FilteredSection where
  start_seconds : ℚ
  end_seconds : ℚ
  method : DetectionMethod
  confidence : ℚ
  notes : Option String
deriving DecidableEq

/-- The comparison realising `all_sections.sort(key=lambda s:
s.start_seconds)`; `List.mergeSort` with this relation is a stable ascending
sort by `start_seconds`, matching Python's stable Timsort. -/
def sectionLE (a b : FilteredSection) : Bool :=
  decide (a.start_seconds ≤ b.start_seconds)

/-- The merged section built inside `combine_with_manual_skips` when
`section.start_seconds < last.end_seconds`: if either input is `MANUAL` the
result is `MANUAL` with confidence `1.0`; otherwise the earlier (`last`)
section's method is kept and the confidence is the max of the two. -/
def mergeSections (last s : FilteredSection) : FilteredSection :=
  if last.method = DetectionMethod.manual ∨ s.method = DetectionMethod.manual then
    ⟨last.start_seconds, max last.end_seconds s.end_seconds,
      DetectionMethod.manual, 1, some "Merged overlapping sections"⟩
  else
    ⟨last.start_seconds, max last.end_seconds s.end_seconds,
      last.method, max last.confidence s.confidence,
      some "Merged overlapping sections"⟩

/-- One iteration of the `for section in all_sections[1:]` loop of
`combine_with_manual_skips`: `last = merged[-1]` is inspected and either
replaced in place by the merged section, or the new section is appended. -/
def combineStep (merged : List FilteredSection) (s : FilteredSection) :
    List FilteredSection :=
  match merged.getLast? with
  | some last =>
      if s.start_seconds < last.end_seconds then
        merged.dropLast ++ [mergeSections last s]
      else
        merged ++ [s]
  | none => [s]

/-- Mirrors `CreditsFilter.combine_with_manual_skips`. -/
def combineWithManualSkips (detected manual : List FilteredSection) :
    List FilteredSection :=
  let allSections := detected ++ manual
  if allSections.isEmpty then []
  else
    match allSections.mergeSort sectionLE with
    | [] => []
    | a :: rest => rest.foldl combineStep [a]

/-- Modelled from the spec, §4.5 merge rule: "if either input to a merge is
`Manual`, the merged interval is `Manual` with `confidence=1.0`; otherwise the
earlier interval's tag is kept and `confidence = max(confidence_a,
confidence_b)`", with `current.end` extended to the max of the two ends.  The
spec leaves the free-text `notes` unconstrained; the source's merged-marker
note is used so that the comparison with the code is exact. -/
def specMergeTwo (earlier later : FilteredSection) : FilteredSection :=
  if earlier.method = DetectionMethod.manual ∨ later.method = DetectionMethod.manual then
    ⟨earlier.start_seconds, max earlier.end_seconds later.end_seconds,
      DetectionMethod.manual, 1, some "Merged overlapping sections"⟩
  else
    ⟨earlier.start_seconds, max earlier.end_seconds later.end_seconds,
      earlier.method, max earlier.confidence later.confidence,
      some "Merged overlapping sections"⟩

/-- Modelled from the spec, §4.5: the left-to-right scan maintaining a
"current merged" interval.  A `next` interval with `next.start < current.end`
(strict overlap, touching endpoints excluded) is merged into `current`;
otherwise `current` is emitted and `next` starts a new current interval. -/
def specMergeScan (current : FilteredSection) :
    List FilteredSection → List FilteredSection
  | [] => [current]
  | s :: rest =>
      if s.start_seconds < current.end_seconds then
        specMergeScan (specMergeTwo current s) rest
      else
        current :: specMergeScan s rest

/-- Modelled from the spec, §4.5: concatenate both inputs, sort ascending by
`start`, then scan. -/
def specMerge (detected manual : List FilteredSection) : List FilteredSection :=
  match (detected ++ manual).mergeSort sectionLE with
  | [] => []
  | a :: rest => specMergeScan a rest

/-- The source's merge rule and the spec's merge rule coincide. -/
theorem mergeSections_eq_specMergeTwo : mergeSections = specMergeTwo := rfl

/-- Behaviour of one loop iteration on a nonempty `merged` list written as
`acc ++ [cur]` (so `cur` is `merged[-1]`). -/
theorem combineStep_concat (acc : List FilteredSection) (cur s : FilteredSection) :
    combineStep (acc ++ [cur]) s =
      if s.start_seconds < cur.end_seconds then acc ++ [mergeSections cur s]
      else (acc ++ [cur]) ++ [s] := by
  unfold combineStep
  rw [List.getLast?_concat]
  by_cases h : s.start_seconds < cur.end_seconds
  · simp [h, List.dropLast_concat]
  · simp [h]

/-- The `merged[-1]`-rewriting fold of the source is the accumulator scan of
the spec: the elements before the last are already final. -/
theorem foldl_combineStep_eq (rest : List FilteredSection) :
    ∀ (acc : List FilteredSection) (cur : FilteredSection),
      List.foldl combineStep (acc ++ [cur]) rest = acc ++ specMergeScan cur rest := by
  induction rest with
  | nil =>
    intro acc cur
    simp [specMergeScan]
  | cons s rest ih =>
    intro acc cur
    rw [List.foldl_cons, combineStep_concat]
    by_cases hlt : s.start_seconds < cur.end_seconds
    · rw [if_pos hlt]
      rw [ih acc (mergeSections cur s)]
      rw [specMergeScan, if_pos hlt, mergeSections_eq_specMergeTwo]
    · rw [if_neg hlt]
      rw [ih (acc ++ [cur]) s]
      rw [specMergeScan, if_neg hlt]
      simp

/-- `combine_with_manual_skips` computes exactly the spec's merge. -/
theorem combineWithManualSkips_eq_specMerge (detected manual : List FilteredSection) :
    combineWithManualSkips detected manual = specMerge detected manual := by
  unfold combineWithManualSkips specMerge
  by_cases hemp : (detected ++ manual).isEmpty
  · have hnil : detected ++ manual = [] := List.isEmpty_iff.mp hemp
    simp [hnil]
  · simp only [hemp, if_false]
    cases hms : (detected ++ manual).mergeSort sectionLE with
    | nil =>
      have hperm := List.mergeSort_perm (detected ++ manual) sectionLE
      rw [hms] at hperm
      have hnil : detected ++ manual = [] :=
        List.length_eq_zero.mp (by simpa using hperm.length_eq.symm)
      exact absurd (List.isEmpty_iff.mpr hnil) hemp
    | cons a rest =>
      simpa using foldl_combineStep_eq rest [] a

/-- Merging never moves the start of the current interval. -/
theorem specMergeTwo_start (a b : FilteredSection) :
    (specMergeTwo a b).start_seconds = a.start_seconds := by
  unfold specMergeTwo
  split <;> rfl

/-- The scan output is nonempty and its head keeps the current interval's
start. -/
theorem specMergeScan_head (rest : List FilteredSection) :
    ∀ cur, ∃ h tl, specMergeScan cur rest = h :: tl ∧
      h.start_seconds = cur.start_seconds := by
  induction rest with
  | nil =>
    intro cur
    exact ⟨cur, [], rfl, rfl⟩
  | cons s rest ih =>
    intro cur
    rw [specMergeScan]
    by_cases hlt : s.start_seconds < cur.end_seconds
    · rw [if_pos hlt]
      obtain ⟨h, tl, heq, hst⟩ := ih (specMergeTwo cur s)
      exact ⟨h, tl, heq, by rw [hst, specMergeTwo_start]⟩
    · rw [if_neg hlt]
      exact ⟨cur, specMergeScan s rest, rfl, rfl⟩

/-- Every start in the scan output is the start of one of the inputs. -/
theorem specMergeScan_mem_start (rest : List FilteredSection) :
    ∀ cur x, x ∈ specMergeScan cur rest →
      ∃ y, (y = cur ∨ y ∈ rest) ∧ x.start_seconds = y.start_seconds := by
  induction rest with
  | nil =>
    intro cur x hx
    rw [specMergeScan] at hx
    simp at hx
    exact ⟨cur, Or.inl rfl, by rw [hx]⟩
  | cons s rest ih =>
    intro cur x hx
    rw [specMergeScan] at hx
    by_cases hlt : s.start_seconds < cur.end_seconds
    · rw [if_pos hlt] at hx
      obtain ⟨y, hy, hst⟩ := ih (specMergeTwo cur s) x hx
      rcases hy with rfl | hy
      · exact ⟨cur, Or.inl rfl, by rw [hst, specMergeTwo_start]⟩
      · exact ⟨y, Or.inr (List.mem_cons_of_mem s hy), hst⟩
    · rw [if_neg hlt] at hx
      rcases List.mem_cons.mp hx with rfl | hx
      · exact ⟨x, Or.inl rfl, rfl⟩
      · obtain ⟨y, hy, hst⟩ := ih s x hx
        rcases hy with rfl | hy
        · exact ⟨y, Or.inr (List.mem_cons_self y rest), hst⟩
        · exact ⟨y, Or.inr (List.mem_cons_of_mem s hy), hst⟩

/-- Consecutive intervals of a merged output never strictly overlap: each
interval ends no later than the next one starts. -/
def Separated (l : List FilteredSection) : Prop :=
  List.Chain' (fun a b => a.end_seconds ≤ b.start_seconds) l

/-- The scan always produces a separated list. -/
theorem specMergeScan_separated (rest : List FilteredSection) :
    ∀ cur, Separated (specMergeScan cur rest) := by
  induction rest with
  | nil =>
    intro cur
    simp [specMergeScan, Separated]
  | cons s rest ih =>
    intro cur
    rw [specMergeScan]
    by_cases hlt : s.start_seconds < cur.end_seconds
    · rw [if_pos hlt]
      exact ih (specMergeTwo cur s)
    · rw [if_neg hlt]
      unfold Separated
      rw [List.chain'_cons']
      refine ⟨?_, ih s⟩
      intro y hy
      obtain ⟨h, tl, heq, hst⟩ := specMergeScan_head rest s
      rw [heq] at hy
      simp at hy
      rw [← hy, hst]
      linarith [not_lt.mp hlt]

/-- The scan of a sorted input is sorted (by start). -/
theorem specMergeScan_pairwise (rest : List FilteredSection) :
    ∀ cur, List.Pairwise (fun a b => sectionLE a b = true) (cur :: rest) →
      List.Pairwise (fun a b => sectionLE a b = true) (specMergeScan cur rest) := by
  induction rest with
  | nil =>
    intro cur _
    simp [specMergeScan]
  | cons s rest ih =>
    intro cur hp
    rw [List.pairwise_cons] at hp
    obtain ⟨hcur, hp'⟩ := hp
    rw [specMergeScan]
    by_cases hlt : s.start_seconds < cur.end_seconds
    · rw [if_pos hlt]
      apply ih
      rw [List.pairwise_cons]
      refine ⟨?_, (List.pairwise_cons.mp hp').2⟩
      intro x hx
      have hcx := hcur x (List.mem_cons_of_mem s hx)
      simpa [sectionLE, specMergeTwo_start] using hcx
    · rw [if_neg hlt]
      rw [List.pairwise_cons]
      refine ⟨?_, ih s hp'⟩
      intro x hx
      obtain ⟨y, hy, hst⟩ := specMergeScan_mem_start rest s x hx
      have hcy : sectionLE cur y = true := by
        rcases hy with rfl | hy
        · exact hcur y (List.mem_cons_self y rest)
        · exact hcur y (List.mem_cons_of_mem s hy)
      simpa [sectionLE, hst] using hcy

/-- Scanning a separated list changes nothing. -/
theorem specMergeScan_of_separated (rest : List FilteredSection) :
    ∀ cur, Separated (cur :: rest) → specMergeScan cur rest = cur :: rest := by
  induction rest with
  | nil =>
    intro cur _
    rfl
  | cons s rest ih =>
    intro cur hsep
    unfold Separated at hsep
    rw [List.chain'_cons] at hsep
    rw [specMergeScan, if_neg (not_lt.mpr hsep.1), ih s hsep.2]

/-- Transitivity of the sort comparison. -/
theorem sectionLE_trans : ∀ a b c : FilteredSection,
    sectionLE a b = true → sectionLE b c = true → sectionLE a c = true := by
  intro a b c
  simp only [sectionLE, decide_eq_true_eq]
  exact le_trans

/-- Totality of the sort comparison. -/
theorem sectionLE_total : ∀ a b : FilteredSection,
    (sectionLE a b || sectionLE b a) = true := by
  intro a b
  simp only [sectionLE, Bool.or_eq_true, decide_eq_true_eq]
  exact le_total _ _

/-- The merged output is sorted by start. -/
theorem specMerge_pairwise (A B : List FilteredSection) :
    List.Pairwise (fun a b => sectionLE a b = true) (specMerge A B) := by
  unfold specMerge
  cases h : (A ++ B).mergeSort sectionLE with
  | nil => simp
  | cons a rest =>
    have hs := List.sorted_mergeSort sectionLE_trans sectionLE_total (A ++ B)
    rw [h] at hs
    exact specMergeScan_pairwise rest a hs

/-- The merged output is separated. -/
theorem specMerge_separated (A B : List FilteredSection) :
    Separated (specMerge A B) := by
  unfold specMerge
  cases h : (A ++ B).mergeSort sectionLE with
  | nil => simp [Separated]
  | cons a rest => exact specMergeScan_separated rest a

/-- C2: the merge engine sorts the concatenation by start and scans left to
right, merging a next interval into the current one exactly when
`next.start < current.end`, with manual precedence and max-end/max-confidence
on merge: `combine_with_manual_skips` equals the merge described by the spec
(first conjunct), the source's per-merge rule is the spec's rule (second),
`BlackFrame[0,10)` with `Manual[8,15)` yields `Manual[0,15)` confidence `1`
(third), and touching intervals `[0,10)`, `[10,20)` stay separate (fourth). -/
theorem claim2_merge_algorithm :
    (∀ detected manual, combineWithManualSkips detected manual
        = specMerge detected manual) ∧
    mergeSections = specMergeTwo ∧
    combineWithManualSkips
        [⟨0, 10, DetectionMethod.black_frame, 8/10, none⟩]
        [⟨8, 15, DetectionMethod.manual, 1, none⟩]
      = [⟨0, 15, DetectionMethod.manual, 1, some "Merged overlapping sections"⟩] ∧
    combineWithManualSkips
        [⟨0, 10, DetectionMethod.black_frame, 8/10, none⟩]
        [⟨10, 20, DetectionMethod.silence, 1/2, none⟩]
      = [⟨0, 10, DetectionMethod.black_frame, 8/10, none⟩,
          ⟨10, 20, DetectionMethod.silence, 1/2, none⟩] := by
  refine ⟨combineWithManualSkips_eq_specMerge, mergeSections_eq_specMergeTwo, ?_, ?_⟩
  · rw [combineWithManualSkips_eq_specMerge]
    unfold specMerge
    rw [List.mergeSort_of_sorted (by simp [sectionLE])]
    simp [specMergeScan, specMergeTwo]
    norm_num
  · rw [combineWithManualSkips_eq_specMerge]
    unfold specMerge
    rw [List.mergeSort_of_sorted (by simp [sectionLE])]
    simp [specMergeScan, specMergeTwo]

/-- C6: the merge engine is idempotent — re-merging a merged result with the
empty list returns it unchanged. -/
theorem claim6_merge_idempotent (A B : List FilteredSection) :
    combineWithManualSkips (combineWithManualSkips A B) [] =
      combineWithManualSkips A B := by
  rw [combineWithManualSkips_eq_specMerge A B,
    combineWithManualSkips_eq_specMerge (specMerge A B) []]
  have hpair := specMerge_pairwise A B
  have hsep := specMerge_separated A B
  generalize hM : specMerge A B = M at *
  unfold specMerge
  rw [List.append_nil, List.mergeSort_of_sorted hpair]
  cases M with
  | nil => rfl
  | cons m tl =>
    show specMergeScan m tl = m :: tl
    exact specMergeScan_of_separated tl m hsep

/-- Mirrors the `TranscriptionSegment` dataclass from
`services/audio_transcriber.py`. -/
structure TranscriptionSegment where
  text : String
  start_time : ℚ
  end_time : ℚ
deriving DecidableEq

/-- Mirrors the `TranscriptionResult` dataclass from
`services/audio_transcriber.py`. -/
structure TranscriptionResult where
  text : String
  segments : List TranscriptionSegment
  chunk_start_time : ℚ
  chunk_end_time : ℚ
deriving DecidableEq

/-- Mirrors `ScriptAssembler._segment_in_filtered_section`: the segment
overlaps some filtered section iff `segment.start_time < section.end_seconds`
and `segment.end_time > section.start_seconds` (the early-`return True` loop
is `List.any`). -/
def segmentInFilteredSection (segment : TranscriptionSegment)
    (filtered_sections : List FilteredSection) : Bool :=
  filtered_sections.any fun sec =>
    decide (segment.start_time < sec.end_seconds) &&
      decide (segment.end_time > sec.start_seconds)

/-- Mirrors `ScriptAssembler._build_filtered_transcript`: collect the texts of
the segments that are in no filtered section (in order, via the nested
`for` loops) and join them with single spaces. -/
def buildFilteredTranscript (transcriptions : List TranscriptionResult)
    (filtered_sections : List FilteredSection) : String :=
  if transcriptions.isEmpty then ""
  else
    let kept := transcriptions.foldl (fun acc tr =>
      tr.segments.foldl (fun acc2 seg =>
        if segmentInFilteredSection seg filtered_sections then acc2
        else acc2 ++ [seg.text]) acc) ([] : List String)
    String.intercalate " " kept

/-- The inner segment loop collects exactly the texts of the surviving
segments, in order. -/
theorem segs_foldl_eq (fs : List FilteredSection)
    (segs : List TranscriptionSegment) :
    ∀ acc, segs.foldl (fun acc2 seg =>
        if segmentInFilteredSection seg fs then acc2
        else acc2 ++ [seg.text]) acc =
      acc ++ (segs.filter
          (fun seg => !segmentInFilteredSection seg fs)).map
        TranscriptionSegment.text := by
  induction segs with
  | nil =>
    intro acc
    simp
  | cons seg segs ih =>
    intro acc
    rw [List.foldl_cons]
    cases h : segmentInFilteredSection seg fs with
    | true => simp [h, ih]
    | false => simp [h, ih]

/-- The outer transcription loop collects the surviving texts of the
concatenation of all segment lists, in order. -/
theorem trs_foldl_eq (fs : List FilteredSection)
    (ts : List TranscriptionResult) :
    ∀ acc, ts.foldl (fun acc tr =>
        tr.segments.foldl (fun acc2 seg =>
          if segmentInFilteredSection seg fs then acc2
          else acc2 ++ [seg.text]) acc) acc =
      acc ++ ((ts.flatMap TranscriptionResult.segments).filter
          (fun seg => !segmentInFilteredSection seg fs)).map
        TranscriptionSegment.text := by
  induction ts with
  | nil =>
    intro acc
    simp
  | cons tr ts ih =>
    intro acc
    rw [List.foldl_cons, segs_foldl_eq, ih, List.flatMap_cons,
      List.filter_append, List.map_append, List.append_assoc]

/-- C5: a transcript segment is dropped iff it strictly overlaps some
filtered interval (first conjunct); the filter joins the surviving segments'
texts in original order with single spaces (second); empty input yields the
empty string (third); input whose segments are all dropped yields the empty
string (fourth); and the worked example `["A",0,2), ("B",2,4), ("C",4,6)]`
against `[2,4)` yields `"A C"` (fifth). -/
theorem claim5_transcript_filter :
    (∀ seg fs, segmentInFilteredSection seg fs = true ↔
      ∃ sec ∈ fs, seg.start_time < sec.end_seconds ∧
        seg.end_time > sec.start_seconds) ∧
    (∀ ts fs, buildFilteredTranscript ts fs =
      String.intercalate " "
        (((ts.flatMap TranscriptionResult.segments).filter
            (fun seg => !segmentInFilteredSection seg fs)).map
          TranscriptionSegment.text)) ∧
    (∀ fs, buildFilteredTranscript [] fs = "") ∧
    (∀ ts fs, (∀ seg ∈ ts.flatMap TranscriptionResult.segments,
        segmentInFilteredSection seg fs = true) →
      buildFilteredTranscript ts fs = "") ∧
    buildFilteredTranscript
        [⟨"A B C", [⟨"A", 0, 2⟩, ⟨"B", 2, 4⟩, ⟨"C", 4, 6⟩], 0, 6⟩]
        [⟨2, 4, DetectionMethod.manual, 1, none⟩] = "A C" := by
  have hchar : ∀ ts fs, buildFilteredTranscript ts fs =
      String.intercalate " "
        (((ts.flatMap TranscriptionResult.segments).filter
            (fun seg => !segmentInFilteredSection seg fs)).map
          TranscriptionSegment.text) := by
    intro ts fs
    unfold buildFilteredTranscript
    by_cases hemp : ts.isEmpty
    · have : ts = [] := List.isEmpty_iff.mp hemp
      subst this
      simp
      rfl
    · simp only [hemp, if_false]
      rw [trs_foldl_eq]
      rfl
  refine ⟨?_, hchar, ?_, ?_, ?_⟩
  · intro seg fs
    simp [segmentInFilteredSection, List.any_eq_true]
  · intro fs
    rfl
  · intro ts fs hall
    rw [hchar]
    have hnil : (ts.flatMap TranscriptionResult.segments).filter
        (fun seg => !segmentInFilteredSection seg fs) = [] := by
      rw [List.filter_eq_nil_iff]
      intro seg hseg
      simp [hall seg hseg]
    rw [hnil]
    rfl
  · rw [hchar]
    rfl

/-- Witness for C5's all-dropped conjunct, at one transcription whose single
segment overlaps the single filtered interval. -/
theorem claim5_transcript_filter_witness :
    (∀ seg ∈ (([⟨"hello world", [⟨"hello world", 0, 2⟩], 0, 2⟩] :
        List TranscriptionResult).flatMap TranscriptionResult.segments),
      segmentInFilteredSection seg
        [⟨0, 10, DetectionMethod.manual, 1, none⟩] = true) ∧
    buildFilteredTranscript
        [⟨"hello world", [⟨"hello world", 0, 2⟩], 0, 2⟩]
        [⟨0, 10, DetectionMethod.manual, 1, none⟩] = "" :=
  ⟨by decide,
    claim5_transcript_filter.2.2.2.1
      [⟨"hello world", [⟨"hello world", 0, 2⟩], 0, 2⟩]
      [⟨0, 10, DetectionMethod.manual, 1, none⟩] (by decide)⟩

/-- Mirrors the `SkipSection` ORM row from `db/models.py` as used by
`services/skip_section_manager.py` (`id`, `job_id`, `start_seconds`,
`end_seconds`, `reason`; the unused `created_at` audit column is omitted). -/
structure SkipSection where
  id : ℕ
  job_id : ℕ
  start_seconds : ℚ
  end_seconds : ℚ
  reason : Option String
deriving DecidableEq

/-- The relational store behind a `SkipSectionManager` session: the committed
`skip_sections` rows in insertion order plus the primary-key counter. -/
structure SkipStore where
  sections : List SkipSection
  nextId : ℕ
deriving DecidableEq

/-- The empty store. -/
def emptyStore : SkipStore := ⟨[], 0⟩

/-- Mirrors `SkipSectionManager._sections_overlap`: strict overlap, touching
boundaries excluded. -/
def sectionsOverlap (start1 end1 start2 end2 : ℚ) : Bool :=
  decide (start1 < end2) && decide (end1 > start2)

/-- Mirrors `SkipSectionManager._check_for_overlap`: scan the sections of the
job (minus an optional excluded id) for a strict overlap with the given
range. -/
def checkForOverlap (st : SkipStore) (jobId : ℕ) (startS endS : ℚ)
    (excludeId : Option ℕ) : Bool :=
  st.sections.any fun s =>
    (s.job_id == jobId) &&
    (match excludeId with
     | some e => s.id != e
     | none => true) &&
    sectionsOverlap startS endS s.start_seconds s.end_seconds

/-- Outcome of a mutating store call.  The two exception classes
`InvalidTimeRangeError` and `OverlappingSectionError` of the source are the
two error constructors; `notFound` is `update_skip_section` returning
`None`. -/
inductive SkipResult where
  | created (s : SkipSection)
  | updated (s : SkipSection)
  | notFound
  | invalidTimeRange
  | overlappingSection
deriving DecidableEq

/-- Mirrors `SkipSectionManager.add_skip_section`: validate the range
(`start < 0`, then `start >= end`, both `InvalidTimeRangeError`), check for
overlaps, then insert the new row and commit. -/
def addSkipSection (st : SkipStore) (jobId : ℕ) (startS endS : ℚ)
    (reason : Option String) : SkipResult × SkipStore :=
  if startS < 0 then (.invalidTimeRange, st)
  else if startS ≥ endS then (.invalidTimeRange, st)
  else if checkForOverlap st jobId startS endS none then (.overlappingSection, st)
  else
    let s : SkipSection := ⟨st.nextId, jobId, startS, endS, reason⟩
    (.created s, ⟨st.sections ++ [s], st.nextId + 1⟩)

/-- Mirrors `SkipSectionManager.get_skip_section_by_id`
(`session.get` by primary key). -/
def getSkipSectionById (st : SkipStore) (sectionId : ℕ) : Option SkipSection :=
  st.sections.find? fun s => s.id == sectionId

/-- Mirrors `SkipSectionManager.update_skip_section`: missing id returns
`None`; supplied fields are merged onto the row; the range is re-validated
when either endpoint was supplied; overlap is re-checked excluding the row
itself; then the row is rewritten in place. -/
def updateSkipSection (st : SkipStore) (sectionId : ℕ)
    (startS endS : Option ℚ) (reason : Option String) : SkipResult × SkipStore :=
  match getSkipSectionById st sectionId with
  | none => (.notFound, st)
  | some sec =>
      let newStart := startS.getD sec.start_seconds
      let newEnd := endS.getD sec.end_seconds
      if (startS.isSome ∨ endS.isSome) ∧ (newStart < 0 ∨ newStart ≥ newEnd) then
        (.invalidTimeRange, st)
      else if checkForOverlap st sec.job_id newStart newEnd (some sectionId) then
        (.overlappingSection, st)
      else
        let sec' : SkipSection :=
          ⟨sec.id, sec.job_id, newStart, newEnd,
            match reason with
            | some r => some r
            | none => sec.reason⟩
        (.updated sec',
          ⟨st.sections.map (fun s => if s.id == sectionId then sec' else s),
            st.nextId⟩)

/-- Mirrors `SkipSectionManager.delete_skip_section`: missing id returns
`False`; otherwise the found row is deleted. -/
def deleteSkipSection (st : SkipStore) (sectionId : ℕ) : Bool × SkipStore :=
  match getSkipSectionById st sectionId with
  | none => (false, st)
  | some sec =>
      (true, ⟨st.sections.eraseP (fun s => s.id == sec.id), st.nextId⟩)

/-- Mirrors `SkipSectionManager.get_skip_sections`: the job's rows ordered by
`start_seconds` (stable sort). -/
def getSkipSections (st : SkipStore) (jobId : ℕ) : List SkipSection :=
  (st.sections.filter fun s => s.job_id == jobId).mergeSort
    (fun a b => decide (a.start_seconds ≤ b.start_seconds))

/-- Mirrors `SkipSectionManager.clear_skip_sections`: fetch the job's
sections, delete each, commit, and return the count. -/
def clearSkipSections (st : SkipStore) (jobId : ℕ) : ℕ × SkipStore :=
  let secs := getSkipSections st jobId
  (secs.length,
    ⟨secs.foldl (fun acc sec => acc.eraseP (fun s => s.id == sec.id))
       st.sections,
      st.nextId⟩)

/-- A sequence of store mutations through `add_skip_section` /
`update_skip_section`. -/
inductive StoreOp where
  | add (jobId : ℕ) (startS endS : ℚ) (reason : Option String)
  | update (sectionId : ℕ) (startS endS : Option ℚ) (reason : Option String)
deriving DecidableEq

/-- Apply one operation to the store. -/
def applyOp (op : StoreOp) (st : SkipStore) : SkipResult × SkipStore :=
  match op with
  | .add jobId startS endS reason => addSkipSection st jobId startS endS reason
  | .update sectionId startS endS reason =>
      updateSkipSection st sectionId startS endS reason

/-- Run a sequence of operations from a starting store. -/
def runOps (ops : List StoreOp) (st : SkipStore) : SkipStore :=
  ops.foldl (fun s op => (applyOp op s).2) st

/-- Well-formedness of the primary keys: every id is below the counter and
ids determine rows. -/
def IdsUnique (st : SkipStore) : Prop :=
  (∀ a ∈ st.sections, a.id < st.nextId) ∧
  (∀ a ∈ st.sections, ∀ b ∈ st.sections, a.id = b.id → a = b)

/-- The store invariant: no two distinct rows of the same job strictly
overlap. -/
def NoJobOverlap (st : SkipStore) : Prop :=
  ∀ a ∈ st.sections, ∀ b ∈ st.sections, a.id ≠ b.id → a.job_id = b.job_id →
    ¬ (a.start_seconds < b.end_seconds ∧ a.end_seconds > b.start_seconds)

/-- Reading `_check_for_overlap`'s negative result, without an excluded id. -/
theorem checkForOverlap_none_false {st : SkipStore} {jobId : ℕ} {s e : ℚ}
    (h : checkForOverlap st jobId s e none = false) :
    ∀ x ∈ st.sections, x.job_id = jobId →
      ¬ (s < x.end_seconds ∧ e > x.start_seconds) := by
  intro x hx hjob hov
  rw [← Bool.not_eq_true, checkForOverlap, List.any_eq_true] at h
  exact h ⟨x, hx, by simp [hjob, sectionsOverlap, hov.1, hov.2]⟩

/-- Reading `_check_for_overlap`'s negative result, with an excluded id. -/
theorem checkForOverlap_some_false {st : SkipStore} {jobId : ℕ} {s e : ℚ}
    {i : ℕ} (h : checkForOverlap st jobId s e (some i) = false) :
    ∀ x ∈ st.sections, x.job_id = jobId → x.id ≠ i →
      ¬ (s < x.end_seconds ∧ e > x.start_seconds) := by
  intro x hx hjob hid hov
  rw [← Bool.not_eq_true, checkForOverlap, List.any_eq_true] at h
  exact h ⟨x, hx, by simp [hjob, hid, sectionsOverlap, hov.1, hov.2]⟩

/-- `add_skip_section` preserves well-formedness and the non-overlap
invariant. -/
theorem addSkipSection_preserves (st : SkipStore) (jobId : ℕ) (s e : ℚ)
    (r : Option String) (h1 : IdsUnique st) (h2 : NoJobOverlap st) :
    IdsUnique (addSkipSection st jobId s e r).2 ∧
      NoJobOverlap (addSkipSection st jobId s e r).2 := by
  unfold addSkipSection
  split_ifs with hneg hse hov
  · exact ⟨h1, h2⟩
  · exact ⟨h1, h2⟩
  · exact ⟨h1, h2⟩
  simp only
  have hovf : checkForOverlap st jobId s e none = false :=
    Bool.not_eq_true _ ▸ hov
  have hno := checkForOverlap_none_false hovf
  constructor
  · constructor
    · intro a ha
      rcases List.mem_append.mp ha with ha | ha
      · exact Nat.lt_succ_of_lt (h1.1 a ha)
      · simp at ha
        rw [ha]
        exact Nat.lt_succ_self _
    · intro a ha b hb hab
      rcases List.mem_append.mp ha with ha | ha <;>
        rcases List.mem_append.mp hb with hb | hb
      · exact h1.2 a ha b hb hab
      · simp at hb
        subst hb
        exfalso
        have hlt := h1.1 a ha
        simp at hab
        omega
      · simp at ha
        subst ha
        exfalso
        have hlt := h1.1 b hb
        simp at hab
        omega
      · simp at ha hb
        rw [ha, hb]
  · intro a ha b hb hab hjob
    rcases List.mem_append.mp ha with ha | ha <;>
      rcases List.mem_append.mp hb with hb | hb
    · exact h2 a ha b hb hab hjob
    · simp at hb
      subst hb
      simp only at hjob ⊢
      intro hcon
      exact hno a ha hjob ⟨hcon.2, hcon.1⟩
    · simp at ha
      subst ha
      simp only at hjob ⊢
      intro hcon
      exact hno b hb hjob.symm ⟨hcon.1, hcon.2⟩
    · simp at ha hb
      rw [ha, hb] at hab
      exact absurd rfl hab

/-- Replacing the row with id `i` by a row `sec'` with the same id and job,
whose new range overlaps no other row of the job, preserves both store
invariants. -/
theorem update_success_preserves (st : SkipStore) (i : ℕ) (sec sec' : SkipSection)
    (h1 : IdsUnique st) (h2 : NoJobOverlap st)
    (hmem : sec ∈ st.sections) (hid : sec.id = i)
    (hsid : sec'.id = sec.id) (hsjob : sec'.job_id = sec.job_id)
    (hno : ∀ x ∈ st.sections, x.job_id = sec.job_id → x.id ≠ i →
      ¬ (sec'.start_seconds < x.end_seconds ∧
          sec'.end_seconds > x.start_seconds)) :
    IdsUnique ⟨st.sections.map (fun s => if s.id == i then sec' else s),
        st.nextId⟩ ∧
      NoJobOverlap ⟨st.sections.map (fun s => if s.id == i then sec' else s),
        st.nextId⟩ := by
  have hxeq : ∀ x ∈ st.sections, x.id = i → x = sec := by
    intro x hx hxi
    exact h1.2 x hx sec hmem (by rw [hxi, hid])
  have hfid : ∀ x ∈ st.sections,
      ((if x.id == i then sec' else x) : SkipSection).id = x.id := by
    intro x hx
    by_cases hxi : x.id = i
    · simp only [hxi, beq_self_eq_true, if_true]
      rw [hsid, hid]
    · simp [hxi]
  have hfjob : ∀ x ∈ st.sections,
      ((if x.id == i then sec' else x) : SkipSection).job_id = x.job_id := by
    intro x hx
    by_cases hxi : x.id = i
    · simp only [hxi, beq_self_eq_true, if_true]
      rw [hsjob, hxeq x hx hxi]
    · simp [hxi]
  constructor
  · constructor
    · intro a ha
      simp only [List.mem_map] at ha
      obtain ⟨x, hx, rfl⟩ := ha
      rw [hfid x hx]
      exact h1.1 x hx
    · intro a ha b hb hab
      simp only [List.mem_map] at ha hb
      obtain ⟨x, hx, rfl⟩ := ha
      obtain ⟨y, hy, rfl⟩ := hb
      rw [hfid x hx, hfid y hy] at hab
      rw [h1.2 x hx y hy hab]
  · intro a ha b hb hab hjob
    simp only [List.mem_map] at ha hb
    obtain ⟨x, hx, rfl⟩ := ha
    obtain ⟨y, hy, rfl⟩ := hb
    rw [hfid x hx, hfid y hy] at hab
    rw [hfjob x hx, hfjob y hy] at hjob
    by_cases hxi : x.id = i <;> by_cases hyi : y.id = i
    · exact absurd (hxi.trans hyi.symm) hab
    · have hxsec := hxeq x hx hxi
      subst hxsec
      simp only [hxi, hyi, beq_iff_eq, beq_self_eq_true, if_true, if_false]
      exact hno y hy hjob.symm hyi
    · have hysec := hxeq y hy hyi
      subst hysec
      simp only [hxi, hyi, beq_iff_eq, beq_self_eq_true, if_true, if_false]
      intro hcon
      exact hno x hx hjob hxi ⟨hcon.2, hcon.1⟩
    · simp only [hxi, hyi, beq_iff_eq, if_false]
      exact h2 x hx y hy hab hjob

/-- `update_skip_section` preserves well-formedness and the non-overlap
invariant. -/
theorem updateSkipSection_preserves (st : SkipStore) (i : ℕ)
    (ns ne : Option ℚ) (r : Option String)
    (h1 : IdsUnique st) (h2 : NoJobOverlap st) :
    IdsUnique (updateSkipSection st i ns ne r).2 ∧
      NoJobOverlap (updateSkipSection st i ns ne r).2 := by
  unfold updateSkipSection
  cases hfind : getSkipSectionById st i with
  | none => exact ⟨h1, h2⟩
  | some sec =>
    simp only
    have hmem : sec ∈ st.sections := List.mem_of_find?_eq_some hfind
    have hid : sec.id = i := by
      have := List.find?_some hfind
      simpa using this
    split_ifs with hval hov
    · exact ⟨h1, h2⟩
    · exact ⟨h1, h2⟩
    · have hovf : checkForOverlap st sec.job_id (ns.getD sec.start_seconds)
          (ne.getD sec.end_seconds) (some i) = false :=
        Bool.not_eq_true _ ▸ hov
      exact update_success_preserves st i sec
        ⟨sec.id, sec.job_id, ns.getD sec.start_seconds, ne.getD sec.end_seconds,
          match r with
          | some rr => some rr
          | none => sec.reason⟩
        h1 h2 hmem hid rfl rfl (checkForOverlap_some_false hovf)

/-- Every `add`/`update` call preserves both store invariants. -/
theorem applyOp_preserves (op : StoreOp) (st : SkipStore)
    (h1 : IdsUnique st) (h2 : NoJobOverlap st) :
    IdsUnique (applyOp op st).2 ∧ NoJobOverlap (applyOp op st).2 := by
  cases op with
  | add jobId startS endS reason =>
    exact addSkipSection_preserves st jobId startS endS reason h1 h2
  | update sectionId startS endS reason =>
    exact updateSkipSection_preserves st sectionId startS endS reason h1 h2

/-- Both invariants hold after any operation sequence from an invariant
store. -/
theorem runOps_preserves (ops : List StoreOp) :
    ∀ st : SkipStore, IdsUnique st → NoJobOverlap st →
      IdsUnique (runOps ops st) ∧ NoJobOverlap (runOps ops st) := by
  induction ops with
  | nil =>
    intro st hbound hov
    exact ⟨hbound, hov⟩
  | cons op ops ih =>
    intro st hbound hov
    obtain ⟨h1, h2⟩ := applyOp_preserves op st hbound hov
    exact ih (applyOp op st).2 h1 h2

/-- A call ending in `InvalidTimeRangeError` or `OverlappingSectionError`
commits nothing: the store is exactly as before. -/
theorem applyOp_error_unchanged (op : StoreOp) (st : SkipStore) :
    ((applyOp op st).1 = SkipResult.invalidTimeRange ∨
      (applyOp op st).1 = SkipResult.overlappingSection) →
    (applyOp op st).2 = st := by
  intro herr
  cases op with
  | add jobId startS endS reason =>
    simp only [applyOp] at herr ⊢
    unfold addSkipSection at herr ⊢
    split_ifs at herr ⊢
    · rfl
    · rfl
    · rfl
    · simp at herr
  | update sectionId startS endS reason =>
    simp only [applyOp] at herr ⊢
    unfold updateSkipSection at herr ⊢
    cases hfind : getSkipSectionById st sectionId with
    | none => simp only [hfind]
    | some sec =>
      simp only [hfind] at herr ⊢
      split_ifs at herr ⊢
      · rfl
      · rfl
      · simp at herr

/-- C1: starting from the empty store, after any sequence of
`add_skip_section` / `update_skip_section` calls no two stored sections of a
job strictly overlap (first conjunct); any call that raises leaves the store
exactly as it was (second); `add_skip_section` raises
`InvalidTimeRangeError` when `start < 0` or `start ≥ end` (third) and
`OverlappingSectionError` when the valid new range strictly overlaps an
existing section of the job (fourth); `update_skip_section` raises the same
two errors for an invalid supplied range (fifth) and for a new range
overlapping another section of the job, itself excluded (sixth). -/
theorem claim1_store_invariant :
    (∀ ops : List StoreOp, ∀ a ∈ (runOps ops emptyStore).sections,
      ∀ b ∈ (runOps ops emptyStore).sections, a.id ≠ b.id →
      a.job_id = b.job_id →
      ¬ (a.start_seconds < b.end_seconds ∧ a.end_seconds > b.start_seconds)) ∧
    (∀ op st, ((applyOp op st).1 = SkipResult.invalidTimeRange ∨
      (applyOp op st).1 = SkipResult.overlappingSection) →
      (applyOp op st).2 = st) ∧
    (∀ st jobId s e r, (s < 0 ∨ e ≤ s) →
      addSkipSection st jobId s e r = (SkipResult.invalidTimeRange, st)) ∧
    (∀ st jobId s e r, 0 ≤ s → s < e →
      (∃ x ∈ st.sections, x.job_id = jobId ∧ s < x.end_seconds ∧
        e > x.start_seconds) →
      addSkipSection st jobId s e r = (SkipResult.overlappingSection, st)) ∧
    (∀ st i ns ne r sec, getSkipSectionById st i = some sec →
      (ns.isSome ∨ ne.isSome) →
      (ns.getD sec.start_seconds < 0 ∨
        ne.getD sec.end_seconds ≤ ns.getD sec.start_seconds) →
      updateSkipSection st i ns ne r = (SkipResult.invalidTimeRange, st)) ∧
    (∀ st i ns ne r sec, getSkipSectionById st i = some sec →
      ¬ ((ns.isSome ∨ ne.isSome) ∧ (ns.getD sec.start_seconds < 0 ∨
        ns.getD sec.start_seconds ≥ ne.getD sec.end_seconds)) →
      (∃ x ∈ st.sections, x.job_id = sec.job_id ∧ x.id ≠ i ∧
        ns.getD sec.start_seconds < x.end_seconds ∧
        ne.getD sec.end_seconds > x.start_seconds) →
      updateSkipSection st i ns ne r = (SkipResult.overlappingSection, st)) := by
  refine ⟨?_, applyOp_error_unchanged, ?_, ?_, ?_, ?_⟩
  · intro ops
    have hempty1 : IdsUnique emptyStore := by
      constructor <;> intro a ha <;> simp [emptyStore] at ha
    have hempty2 : NoJobOverlap emptyStore := by
      intro a ha
      simp [emptyStore] at ha
    exact (runOps_preserves ops emptyStore hempty1 hempty2).2
  · intro st jobId s e r hbad
    unfold addSkipSection
    split_ifs with h1 h2 h3
    · rfl
    · rfl
    · exfalso
      rcases hbad with hbad | hbad
      · exact h1 hbad
      · exact h2 (by linarith)
    · exfalso
      rcases hbad with hbad | hbad
      · exact h1 hbad
      · exact h2 (by linarith)
  · intro st jobId s e r hs hse hex
    unfold addSkipSection
    split_ifs with h1 h2 h3
    · exact absurd hs (by simpa using h1)
    · exact absurd hse (by simpa using h2)
    · rfl
    · exfalso
      obtain ⟨x, hx, hjob, hlt1, hlt2⟩ := hex
      have hovf : checkForOverlap st jobId s e none = false :=
        Bool.not_eq_true _ ▸ h3
      exact checkForOverlap_none_false hovf x hx hjob ⟨hlt1, hlt2⟩
  · intro st i ns ne r sec hfind hsome hbad
    unfold updateSkipSection
    rw [hfind]
    simp only
    split_ifs with h1 h2
    · rfl
    · exact absurd ⟨hsome, hbad⟩ h1
    · exact absurd ⟨hsome, hbad⟩ h1
  · intro st i ns ne r sec hfind hval hex
    unfold updateSkipSection
    rw [hfind]
    simp only
    split_ifs with h1
    · rfl
    · exfalso
      obtain ⟨x, hx, hjob, hxi, hlt1, hlt2⟩ := hex
      have hovf : checkForOverlap st sec.job_id (ns.getD sec.start_seconds)
          (ne.getD sec.end_seconds) (some i) = false :=
        Bool.not_eq_true _ ▸ h1
      exact checkForOverlap_some_false hovf x hx hjob hxi ⟨hlt1, hlt2⟩

/-- Witness for C1, exercising every conjunct on the spec's worked example:
create `[10,30)` succeeds, create `[20,40)` on the same job raises
`OverlappingSectionError` leaving the store unchanged, create `[30,50)`
(boundary touch) succeeds, and the surviving sections do not overlap; update
calls raise the same errors. -/
theorem claim1_store_invariant_witness :
    ((⟨0, 1, 10, 30, none⟩ : SkipSection) ∈
        (runOps [StoreOp.add 1 10 30 none, StoreOp.add 1 20 40 none,
          StoreOp.add 1 30 50 none] emptyStore).sections ∧
      (⟨1, 1, 30, 50, none⟩ : SkipSection) ∈
        (runOps [StoreOp.add 1 10 30 none, StoreOp.add 1 20 40 none,
          StoreOp.add 1 30 50 none] emptyStore).sections ∧
      ¬ ((10:ℚ) < 50 ∧ (30:ℚ) > 30)) ∧
    ((applyOp (StoreOp.add 1 20 40 none)
        ⟨[⟨0, 1, 10, 30, none⟩], 1⟩).1 = SkipResult.overlappingSection ∧
      (applyOp (StoreOp.add 1 20 40 none)
        ⟨[⟨0, 1, 10, 30, none⟩], 1⟩).2 = ⟨[⟨0, 1, 10, 30, none⟩], 1⟩) ∧
    addSkipSection ⟨[⟨0, 1, 10, 30, none⟩], 1⟩ 1 5 5 none
      = (SkipResult.invalidTimeRange, ⟨[⟨0, 1, 10, 30, none⟩], 1⟩) ∧
    addSkipSection ⟨[⟨0, 1, 10, 30, none⟩], 1⟩ 1 20 40 none
      = (SkipResult.overlappingSection, ⟨[⟨0, 1, 10, 30, none⟩], 1⟩) ∧
    updateSkipSection ⟨[⟨0, 1, 10, 30, none⟩], 1⟩ 0 (some (-1)) none none
      = (SkipResult.invalidTimeRange, ⟨[⟨0, 1, 10, 30, none⟩], 1⟩) ∧
    updateSkipSection ⟨[⟨0, 1, 10, 30, none⟩, ⟨1, 1, 30, 50, none⟩], 2⟩ 1
        (some 25) none none
      = (SkipResult.overlappingSection,
          ⟨[⟨0, 1, 10, 30, none⟩, ⟨1, 1, 30, 50, none⟩], 2⟩) := by
  refine ⟨⟨by decide, by decide,
      claim1_store_invariant.1
        [StoreOp.add 1 10 30 none, StoreOp.add 1 20 40 none,
          StoreOp.add 1 30 50 none]
        ⟨0, 1, 10, 30, none⟩ (by decide) ⟨1, 1, 30, 50, none⟩ (by decide)
        (by decide) (by decide)⟩,
    ⟨by decide, claim1_store_invariant.2.1 (StoreOp.add 1 20 40 none)
      ⟨[⟨0, 1, 10, 30, none⟩], 1⟩ (Or.inr (by decide))⟩,
    claim1_store_invariant.2.2.1 ⟨[⟨0, 1, 10, 30, none⟩], 1⟩ 1 5 5 none
      (Or.inr (by norm_num)),
    claim1_store_invariant.2.2.2.1 ⟨[⟨0, 1, 10, 30, none⟩], 1⟩ 1 20 40 none
      (by norm_num) (by norm_num)
      ⟨⟨0, 1, 10, 30, none⟩, by decide, by decide, by norm_num, by norm_num⟩,
    claim1_store_invariant.2.2.2.2.1 ⟨[⟨0, 1, 10, 30, none⟩], 1⟩ 0
      (some (-1)) none none ⟨0, 1, 10, 30, none⟩ (by decide)
      (Or.inl (by decide)) (Or.inl (by norm_num)),
    claim1_store_invariant.2.2.2.2.2
      ⟨[⟨0, 1, 10, 30, none⟩, ⟨1, 1, 30, 50, none⟩], 2⟩ 1 (some 25) none none
      ⟨1, 1, 30, 50, none⟩ (by decide) (by decide)
      ⟨⟨0, 1, 10, 30, none⟩, by decide, by decide, by decide, by norm_num,
        by norm_num⟩⟩

/-- C9: lookups, updates and deletes against a section id that is not in the
store return the sentinel (`none` / `none` / `false`) and leave every stored
section unchanged; nothing is raised (the embedding has no other outcome). -/
theorem claim9_missing_id (st : SkipStore) (sectionId : ℕ)
    (h : ∀ s ∈ st.sections, s.id ≠ sectionId) :
    getSkipSectionById st sectionId = none ∧
    (∀ ns ne r, updateSkipSection st sectionId ns ne r
      = (SkipResult.notFound, st)) ∧
    deleteSkipSection st sectionId = (false, st) := by
  have hfind : getSkipSectionById st sectionId = none := by
    unfold getSkipSectionById
    rw [List.find?_eq_none]
    intro x hx
    simp [h x hx]
  refine ⟨hfind, ?_, ?_⟩
  · intro ns ne r
    unfold updateSkipSection
    rw [hfind]
  · unfold deleteSkipSection
    rw [hfind]

/-- Witness for C9 at a one-row store and the missing id `5`. -/
theorem claim9_missing_id_witness :
    (∀ s ∈ ((⟨[⟨0, 1, 10, 30, none⟩], 1⟩ : SkipStore)).sections, s.id ≠ 5) ∧
    (getSkipSectionById ⟨[⟨0, 1, 10, 30, none⟩], 1⟩ 5 = none ∧
      (∀ ns ne r, updateSkipSection ⟨[⟨0, 1, 10, 30, none⟩], 1⟩ 5 ns ne r
        = (SkipResult.notFound, ⟨[⟨0, 1, 10, 30, none⟩], 1⟩)) ∧
      deleteSkipSection ⟨[⟨0, 1, 10, 30, none⟩], 1⟩ 5
        = (false, ⟨[⟨0, 1, 10, 30, none⟩], 1⟩)) :=
  ⟨by decide, claim9_missing_id ⟨[⟨0, 1, 10, 30, none⟩], 1⟩ 5 (by decide)⟩

/-- Deleting by an id that occurs at most once (pairwise distinct ids) is
filtering that id out. -/
theorem eraseP_eq_filter_of_unique :
    ∀ (l : List SkipSection), l.Pairwise (fun a b => a.id ≠ b.id) →
      ∀ i : ℕ, l.eraseP (fun s => s.id == i)
        = l.filter (fun s => !(s.id == i)) := by
  intro l
  induction l with
  | nil =>
    intro _ i
    rfl
  | cons a l ih =>
    intro hp i
    rw [List.pairwise_cons] at hp
    by_cases ha : a.id = i
    · rw [List.eraseP_cons_of_pos (by simp [ha]),
        List.filter_cons_of_neg (by simp [ha])]
      rw [List.filter_eq_self.mpr]
      intro b hb
      have : a.id ≠ b.id := hp.1 b hb
      simp
      omega
    · rw [List.eraseP_cons_of_neg (by simp [ha]),
        List.filter_cons_of_pos (by simp [ha]), ih hp.2 i]

/-- Folding id-deletions over a batch removes exactly the rows whose id
occurs in the batch. -/
theorem foldl_eraseP_eq_filter (M : List SkipSection) :
    ∀ (l : List SkipSection), l.Pairwise (fun a b => a.id ≠ b.id) →
      M.foldl (fun acc sec => acc.eraseP (fun s => s.id == sec.id)) l =
        l.filter (fun s => !(M.any (fun sec => s.id == sec.id))) := by
  induction M with
  | nil =>
    intro l _
    simp
  | cons m M ih =>
    intro l hp
    rw [List.foldl_cons, eraseP_eq_filter_of_unique l hp m.id,
      ih _ (hp.filter _), List.filter_filter]
    apply List.filter_congr
    intro x _
    rw [List.any_cons]
    cases hxm : x.id == m.id <;> simp [hxm]

/-- C10: `clear_skip_sections(job_id)` returns the number of rows of the job,
removes exactly those rows (all other jobs' rows survive unchanged, in
order), and afterwards `get_skip_sections(job_id)` is empty. -/
theorem claim10_clear (st : SkipStore) (jobId : ℕ)
    (hids : st.sections.Pairwise (fun a b => a.id ≠ b.id)) :
    (clearSkipSections st jobId).1 =
      (st.sections.filter (fun s => s.job_id == jobId)).length ∧
    (clearSkipSections st jobId).2.sections =
      st.sections.filter (fun s => !(s.job_id == jobId)) ∧
    getSkipSections (clearSkipSections st jobId).2 jobId = [] := by
  have huniq : ∀ a ∈ st.sections, ∀ b ∈ st.sections, a.id = b.id → a = b := by
    intro a ha b hb hab
    by_contra hne
    exact (hids.forall (fun x y hxy => hxy.symm) ha hb hne) hab
  have hsections : (clearSkipSections st jobId).2.sections =
      st.sections.filter (fun s => !(s.job_id == jobId)) := by
    show (getSkipSections st jobId).foldl
        (fun acc sec => acc.eraseP (fun s => s.id == sec.id)) st.sections = _
    rw [foldl_eraseP_eq_filter _ _ hids]
    apply List.filter_congr
    intro x hx
    congr 1
    cases hjob : x.job_id == jobId with
    | true =>
      rw [List.any_eq_true]
      refine ⟨x, ?_, by simp⟩
      unfold getSkipSections
      rw [List.mem_mergeSort, List.mem_filter]
      exact ⟨hx, hjob⟩
    | false =>
      rw [← Bool.not_eq_true, List.any_eq_true]
      rintro ⟨sec, hsec, hsecid⟩
      unfold getSkipSections at hsec
      rw [List.mem_mergeSort, List.mem_filter] at hsec
      have hxsec : x = sec := huniq x hx sec hsec.1 (by simpa using hsecid)
      rw [hxsec] at hjob
      rw [hsec.2] at hjob
      cases hjob
  refine ⟨?_, hsections, ?_⟩
  · show (getSkipSections st jobId).length = _
    unfold getSkipSections
    rw [List.length_mergeSort]
  · unfold getSkipSections
    rw [hsections, List.filter_filter]
    have hnone : ∀ x ∈ st.sections,
        ((x.job_id == jobId) && !(x.job_id == jobId)) = false := by
      intro x _
      cases x.job_id == jobId <;> rfl
    rw [List.filter_congr hnone]
    simp

/-- Witness for C10 at a three-row store over two jobs. -/
theorem claim10_clear_witness :
    (([⟨0, 1, 10, 30, none⟩, ⟨1, 2, 5, 8, none⟩, ⟨2, 1, 40, 50, none⟩] :
        List SkipSection).Pairwise (fun a b => a.id ≠ b.id)) ∧
    ((clearSkipSections
        ⟨[⟨0, 1, 10, 30, none⟩, ⟨1, 2, 5, 8, none⟩, ⟨2, 1, 40, 50, none⟩], 3⟩
        1).1 =
      (([⟨0, 1, 10, 30, none⟩, ⟨1, 2, 5, 8, none⟩, ⟨2, 1, 40, 50, none⟩] :
        List SkipSection).filter (fun s => s.job_id == 1)).length ∧
    (clearSkipSections
        ⟨[⟨0, 1, 10, 30, none⟩, ⟨1, 2, 5, 8, none⟩, ⟨2, 1, 40, 50, none⟩], 3⟩
        1).2.sections =
      ([⟨0, 1, 10, 30, none⟩, ⟨1, 2, 5, 8, none⟩, ⟨2, 1, 40, 50, none⟩] :
        List SkipSection).filter (fun s => !(s.job_id == 1)) ∧
    getSkipSections
      (clearSkipSections
        ⟨[⟨0, 1, 10, 30, none⟩, ⟨1, 2, 5, 8, none⟩, ⟨2, 1, 40, 50, none⟩], 3⟩
        1).2 1 = []) :=
  ⟨by decide,
    claim10_clear
      ⟨[⟨0, 1, 10, 30, none⟩, ⟨1, 2, 5, 8, none⟩, ⟨2, 1, 40, 50, none⟩], 3⟩
      1 (by decide)⟩

/-- The frame loop of `CreditsFilter.detect_black_frames`, over the list of
per-frame average brightness values actually read (a failed read or
unopenable source is a shorter or empty list).  `currentFrame` is the
absolute frame number, `runStart` the frame number where the current black
run began (`black_frame_start`), `count` the run's `black_frame_count`. -/
def blackScan (thr minDur fps : ℚ) :
    List ℚ → ℕ → Option ℕ → ℕ → List FilteredSection
  | [], currentFrame, runStart, count =>
      match runStart with
      | some st =>
          if minDur ≤ ((currentFrame - st : ℕ) : ℚ) / fps then
            [⟨(st : ℚ) / fps, (currentFrame : ℚ) / fps,
              DetectionMethod.black_frame,
              min 1 ((count : ℚ) / (fps * 2)),
              some ("Detected " ++ toString count ++ " black frames")⟩]
          else []
      | none => []
  | b :: rest, currentFrame, runStart, count =>
      if b < thr then
        match runStart with
        | none => blackScan thr minDur fps rest (currentFrame + 1)
            (some currentFrame) (count + 1)
        | some st => blackScan thr minDur fps rest (currentFrame + 1)
            (some st) (count + 1)
      else
        match runStart with
        | some st =>
            (if minDur ≤ ((currentFrame - st : ℕ) : ℚ) / fps then
              [⟨(st : ℚ) / fps, (currentFrame : ℚ) / fps,
                DetectionMethod.black_frame,
                min 1 ((count : ℚ) / (fps * 2)),
                some ("Detected " ++ toString count ++ " black frames")⟩]
            else []) ++ blackScan thr minDur fps rest (currentFrame + 1) none 0
        | none => blackScan thr minDur fps rest (currentFrame + 1) none 0

/-- Mirrors `CreditsFilter.detect_black_frames` restricted to its scan logic:
the brightness of the frames read from `start_frame` on. -/
def detectBlackFrames (thr minDur fps : ℚ) (startFrame : ℕ)
    (brightness : List ℚ) : List FilteredSection :=
  blackScan thr minDur fps brightness startFrame none 0

/-- The audio loop of `CreditsFilter.detect_silence`: 0.5-second windows from
`current` up to `clipEnd`; `level t` is the dB level
(`_calculate_audio_level`) of the window starting at `t` (an audio chunk over
a nonempty time range is nonempty, so the `len(audio_chunk) > 0` guard always
holds).  `silenceStart` is the start of the current silent run.  The dB value
interpolated into the source's note strings is elided. -/
def silenceScan (dbThr minDur : ℚ) (level : ℚ → ℚ) (clipEnd : ℚ)
    (current : ℚ) (silenceStart : Option ℚ) : List FilteredSection :=
  if h : current < clipEnd then
    let chunkEnd := min (current + 1/2) clipEnd
    if level current < dbThr then
      match silenceStart with
      | none => silenceScan dbThr minDur level clipEnd chunkEnd (some current)
      | some s => silenceScan dbThr minDur level clipEnd chunkEnd (some s)
    else
      match silenceStart with
      | some s =>
          (if minDur ≤ current - s then
            [⟨s, current, DetectionMethod.silence, min 1 ((current - s) / 5),
              some "Silent section"⟩]
          else []) ++ silenceScan dbThr minDur level clipEnd chunkEnd none
      | none => silenceScan dbThr minDur level clipEnd chunkEnd none
  else
    match silenceStart with
    | some s =>
        if minDur ≤ current - s then
          [⟨s, current, DetectionMethod.silence, min 1 ((current - s) / 5),
            some "Silent section at end"⟩]
        else []
    | none => []
  termination_by (⌈(clipEnd - current) * 2⌉).toNat
  decreasing_by
    all_goals
      have h1 : (0:ℤ) < ⌈(clipEnd - current) * 2⌉ :=
        Int.ceil_pos.mpr (by linarith)
      by_cases hc : current + 1/2 ≤ clipEnd
      · rw [min_eq_left hc]
        have heq : (clipEnd - (current + 1/2)) * 2 =
            (clipEnd - current) * 2 - 1 := by ring
        rw [heq, Int.ceil_sub_one]
        omega
      · rw [min_eq_right (by linarith)]
        rw [sub_self, zero_mul, Int.ceil_zero]
        omega

/-- Mirrors `CreditsFilter.detect_silence` restricted to its scan logic. -/
def detectSilence (dbThr minDur : ℚ) (level : ℚ → ℚ)
    (clipStart clipEnd : ℚ) : List FilteredSection :=
  silenceScan dbThr minDur level clipEnd clipStart none

/-- Every section the black-frame loop emits covers at least
`min_section_duration`: the emission guard is exactly the run duration. -/
theorem blackScan_min_duration (thr minDur fps : ℚ) :
    ∀ (frames : List ℚ) (cur : ℕ) (rs : Option ℕ) (cnt : ℕ),
      (∀ st, rs = some st → st ≤ cur) →
      ∀ sec ∈ blackScan thr minDur fps frames cur rs cnt,
        minDur ≤ sec.end_seconds - sec.start_seconds := by
  intro frames
  induction frames with
  | nil =>
    intro cur rs cnt hinv sec hsec
    cases rs with
    | none => simp [blackScan] at hsec
    | some st =>
      rw [blackScan] at hsec
      by_cases hg : minDur ≤ ((cur - st : ℕ) : ℚ) / fps
      · simp only [hg, if_true, List.mem_singleton] at hsec
        subst hsec
        simp only
        have hle := hinv st rfl
        have hcast : (cur : ℚ) / fps - (st : ℚ) / fps
            = ((cur - st : ℕ) : ℚ) / fps := by
          rw [Nat.cast_sub hle, sub_div]
        rw [hcast]
        exact hg
      · simp [hg] at hsec
  | cons b rest ih =>
    intro cur rs cnt hinv sec hsec
    cases rs with
    | none =>
      rw [blackScan] at hsec
      by_cases hb : b < thr
      · rw [if_pos hb] at hsec
        exact ih (cur + 1) (some cur) (cnt + 1)
          (by rintro st ⟨rfl⟩; omega) sec hsec
      · rw [if_neg hb] at hsec
        exact ih (cur + 1) none 0 (by rintro st ⟨rfl⟩) sec hsec
    | some st =>
      rw [blackScan] at hsec
      by_cases hb : b < thr
      · rw [if_pos hb] at hsec
        exact ih (cur + 1) (some st) (cnt + 1)
          (by rintro st' ⟨rfl⟩; have := hinv st rfl; omega) sec hsec
      · rw [if_neg hb] at hsec
        rcases List.mem_append.mp hsec with hmem | hmem
        · by_cases hg : minDur ≤ ((cur - st : ℕ) : ℚ) / fps
          · simp only [hg, if_true, List.mem_singleton] at hmem
            subst hmem
            simp only
            have hle := hinv st rfl
            have hcast : (cur : ℚ) / fps - (st : ℚ) / fps
                = ((cur - st : ℕ) : ℚ) / fps := by
              rw [Nat.cast_sub hle, sub_div]
            rw [hcast]
            exact hg
          · simp [hg] at hmem
        · exact ih (cur + 1) none 0 (by rintro st' ⟨rfl⟩) sec hmem

/-- Scanning through a run of black frames just advances the counters. -/
theorem blackScan_replicate (thr minDur fps b : ℚ) (hb : b < thr) :
    ∀ (k : ℕ) (tail : List ℚ) (cur st cnt : ℕ),
      blackScan thr minDur fps (List.replicate k b ++ tail) cur (some st) cnt
        = blackScan thr minDur fps tail (cur + k) (some st) (cnt + k) := by
  intro k
  induction k with
  | zero =>
    intro tail cur st cnt
    simp
  | succ k ih =>
    intro tail cur st cnt
    rw [List.replicate_succ, List.cons_append, blackScan, if_pos hb]
    rw [ih tail (cur + 1) st (cnt + 1)]
    have h1 : cur + 1 + k = cur + (k + 1) := by omega
    have h2 : cnt + 1 + k = cnt + (k + 1) := by omega
    rw [h1, h2]

/-- A single maximal run of `n` black frames starting at frame 0 — whether
closed by a non-black frame or by the end of the stream — is emitted iff its
duration `n / fps` reaches `min_section_duration`. -/
theorem detectBlackFrames_single_run (thr minDur fps b nb : ℚ)
    (hb : b < thr) (hnb : ¬ nb < thr) (n : ℕ) (hn : 0 < n) :
    detectBlackFrames thr minDur fps 0 (List.replicate n b ++ [nb]) =
      (if minDur ≤ (n : ℚ) / fps then
        [⟨0, (n : ℚ) / fps, DetectionMethod.black_frame,
          min 1 ((n : ℚ) / (fps * 2)),
          some ("Detected " ++ toString n ++ " black frames")⟩]
      else []) ∧
    detectBlackFrames thr minDur fps 0 (List.replicate n b) =
      (if minDur ≤ (n : ℚ) / fps then
        [⟨0, (n : ℚ) / fps, DetectionMethod.black_frame,
          min 1 ((n : ℚ) / (fps * 2)),
          some ("Detected " ++ toString n ++ " black frames")⟩]
      else []) := by
  obtain ⟨m, rfl⟩ : ∃ m, n = m + 1 := ⟨n - 1, by omega⟩
  have hstep : ∀ tail, blackScan thr minDur fps
      (List.replicate (m + 1) b ++ tail) 0 none 0 =
        blackScan thr minDur fps tail (m + 1) (some 0) (m + 1) := by
    intro tail
    rw [List.replicate_succ, List.cons_append, blackScan, if_pos hb]
    rw [blackScan_replicate thr minDur fps b hb m tail 1 0 1]
    have h1 : 1 + m = m + 1 := by omega
    rw [h1]
  constructor
  · show blackScan thr minDur fps (List.replicate (m + 1) b ++ [nb]) 0 none 0 = _
    rw [hstep [nb], blackScan, if_neg hnb]
    have hz : ((m + 1 - 0 : ℕ) : ℚ) = ((m + 1 : ℕ) : ℚ) := by norm_num
    rw [blackScan]
    simp only [hz]
    by_cases hg : minDur ≤ ((m + 1 : ℕ) : ℚ) / fps
    · rw [if_pos hg, if_pos hg]
      simp
    · rw [if_neg hg, if_neg hg]
      simp
  · show blackScan thr minDur fps (List.replicate (m + 1) b) 0 none 0 = _
    have hemp : List.replicate (m + 1) b = List.replicate (m + 1) b ++ [] := by
      simp
    rw [hemp, hstep [], blackScan]
    have hz : ((m + 1 - 0 : ℕ) : ℚ) = ((m + 1 : ℕ) : ℚ) := by norm_num
    simp only [hz]
    by_cases hg : minDur ≤ ((m + 1 : ℕ) : ℚ) / fps
    · rw [if_pos hg, if_pos hg]
      simp
    · rw [if_neg hg, if_neg hg]

/-- Every section the silence loop emits covers at least
`min_section_duration`: the emission guard is the run duration itself. -/
theorem silenceScan_min_duration (dbThr minDur : ℚ) (level : ℚ → ℚ)
    (clipEnd : ℚ) :
    ∀ (current : ℚ) (ss : Option ℚ),
      ∀ sec ∈ silenceScan dbThr minDur level clipEnd current ss,
        minDur ≤ sec.end_seconds - sec.start_seconds := by
  intro current ss
  induction current, ss using silenceScan.induct dbThr minDur level clipEnd with
  | case1 current hlt chunkEnd hsil ih =>
    intro sec hsec
    rw [silenceScan, dif_pos hlt] at hsec
    simp only [if_pos hsil] at hsec
    exact ih sec hsec
  | case2 current hlt chunkEnd hsil s ih =>
    intro sec hsec
    rw [silenceScan, dif_pos hlt] at hsec
    simp only [if_pos hsil] at hsec
    exact ih sec hsec
  | case3 current hlt chunkEnd hsil s ih =>
    intro sec hsec
    rw [silenceScan, dif_pos hlt] at hsec
    simp only [if_neg hsil] at hsec
    rcases List.mem_append.mp hsec with hmem | hmem
    · by_cases hg : minDur ≤ current - s
      · simp only [hg, if_true, List.mem_singleton] at hmem
        subst hmem
        exact hg
      · simp [hg] at hmem
    · exact ih sec hmem
  | case4 current hlt chunkEnd hsil ih =>
    intro sec hsec
    rw [silenceScan, dif_pos hlt] at hsec
    simp only [if_neg hsil] at hsec
    exact ih sec hsec
  | case5 current hlt s hg =>
    intro sec hsec
    rw [silenceScan, dif_neg hlt] at hsec
    simp only [hg, if_true, List.mem_singleton] at hsec
    subst hsec
    exact hg
  | case6 current hlt s hg =>
    intro sec hsec
    rw [silenceScan, dif_neg hlt] at hsec
    simp [hg] at hsec
  | case7 current hlt =>
    intro sec hsec
    rw [silenceScan, dif_neg hlt] at hsec
    simp at hsec

/-- One silent window inside a run: the scan advances by half a second. -/
theorem silenceScan_step_silent (dbThr minDur : ℚ) (level : ℚ → ℚ)
    (clipEnd current s : ℚ) (hlt : current < clipEnd)
    (hchunk : current + 1/2 ≤ clipEnd) (hsil : level current < dbThr) :
    silenceScan dbThr minDur level clipEnd current (some s) =
      silenceScan dbThr minDur level clipEnd (current + 1/2) (some s) := by
  conv_lhs => rw [silenceScan]
  rw [dif_pos hlt]
  simp only [if_pos hsil, min_eq_left hchunk]

/-- The first silent window opens a run at the current time. -/
theorem silenceScan_step_enter (dbThr minDur : ℚ) (level : ℚ → ℚ)
    (clipEnd current : ℚ) (hlt : current < clipEnd)
    (hchunk : current + 1/2 ≤ clipEnd) (hsil : level current < dbThr) :
    silenceScan dbThr minDur level clipEnd current none =
      silenceScan dbThr minDur level clipEnd (current + 1/2) (some current) := by
  conv_lhs => rw [silenceScan]
  rw [dif_pos hlt]
  simp only [if_pos hsil, min_eq_left hchunk]

/-- A run of `j` further silent windows advances the scan by `j / 2`
seconds. -/
theorem silenceScan_run (dbThr minDur : ℚ) (level : ℚ → ℚ) (clipEnd s : ℚ) :
    ∀ (j : ℕ) (current : ℚ),
      current + (j : ℚ) / 2 ≤ clipEnd →
      (∀ i : ℕ, i < j → level (current + (i : ℚ) / 2) < dbThr) →
      silenceScan dbThr minDur level clipEnd current (some s) =
        silenceScan dbThr minDur level clipEnd (current + (j : ℚ) / 2)
          (some s) := by
  intro j
  induction j with
  | zero =>
    intro current _ _
    norm_num
  | succ j ih =>
    intro current hend hsil
    have hcast : ((j : ℚ) + 1) / 2 = (((j + 1 : ℕ)) : ℚ) / 2 := by push_cast; ring
    have hchunk : current + 1/2 ≤ clipEnd := by
      have : (0:ℚ) ≤ (j : ℚ) / 2 := by positivity
      push_cast at hend
      linarith
    have hlt : current < clipEnd := by linarith
    have hsil0 : level current < dbThr := by
      have := hsil 0 (by omega)
      simpa using this
    rw [silenceScan_step_silent dbThr minDur level clipEnd current s hlt hchunk
      hsil0]
    rw [ih (current + 1/2) (by push_cast at hend ⊢; linarith)
      (by
        intro i hi
        have := hsil (i + 1) (by omega)
        have harg : current + 1/2 + (i : ℚ) / 2 = current + ((i : ℚ) + 1) / 2 := by
          ring
        rw [harg]
        push_cast at this ⊢
        exact this)]
    have harg2 : current + 1/2 + (j : ℚ) / 2 = current + (((j + 1 : ℕ)) : ℚ) / 2 := by
      push_cast
      ring
    rw [harg2]

/-- An audio level function that is silent strictly before `cutoff` and loud
from `cutoff` on: the test input realising a single maximal silent run. -/
def stepLevel (cutoff sLvl lLvl : ℚ) : ℚ → ℚ :=
  fun t => if t < cutoff then sLvl else lLvl

/-- A single maximal silent run of `k` half-second windows starting at time 0
— whether closed by a loud window or by the end of the clip — is emitted iff
its duration `k / 2` reaches `min_section_duration`. -/
theorem detectSilence_single_run (dbThr minDur sLvl lLvl : ℚ)
    (hsl : sLvl < dbThr) (hll : ¬ lLvl < dbThr) (k : ℕ) (hk : 0 < k) :
    detectSilence dbThr minDur (stepLevel ((k : ℚ) / 2) sLvl lLvl) 0
        ((k : ℚ) / 2 + 1/2) =
      (if minDur ≤ (k : ℚ) / 2 then
        [⟨0, (k : ℚ) / 2, DetectionMethod.silence, min 1 (((k : ℚ) / 2) / 5),
          some "Silent section"⟩]
      else []) ∧
    detectSilence dbThr minDur (stepLevel ((k : ℚ) / 2) sLvl lLvl) 0
        ((k : ℚ) / 2) =
      (if minDur ≤ (k : ℚ) / 2 then
        [⟨0, (k : ℚ) / 2, DetectionMethod.silence, min 1 (((k : ℚ) / 2) / 5),
          some "Silent section at end"⟩]
      else []) := by
  have hkq : (0:ℚ) < (k : ℚ) / 2 := by positivity
  have hk1 : (1:ℚ) ≤ (k : ℚ) := by exact_mod_cast hk
  have hcsub : ((k - 1 : ℕ) : ℚ) = (k : ℚ) - 1 := by
    push_cast [Nat.cast_sub (by omega : 1 ≤ k)]
    ring
  have hlvl_sil : ∀ t : ℚ, t < (k : ℚ) / 2 →
      stepLevel ((k : ℚ) / 2) sLvl lLvl t < dbThr := by
    intro t ht
    simp only [stepLevel, if_pos ht]
    exact hsl
  have hlvl_loud : ∀ t : ℚ, ¬ t < (k : ℚ) / 2 →
      ¬ stepLevel ((k : ℚ) / 2) sLvl lLvl t < dbThr := by
    intro t ht
    simp only [stepLevel, if_neg ht]
    exact hll
  have hrun : ∀ clipEnd : ℚ, (k : ℚ) / 2 ≤ clipEnd →
      silenceScan dbThr minDur (stepLevel ((k : ℚ) / 2) sLvl lLvl) clipEnd 0
          none =
        silenceScan dbThr minDur (stepLevel ((k : ℚ) / 2) sLvl lLvl) clipEnd
          ((k : ℚ) / 2) (some 0) := by
    intro clipEnd hce
    rw [silenceScan_step_enter dbThr minDur _ _ 0 (by linarith)
      (by linarith) (hlvl_sil 0 hkq)]
    rw [show (0:ℚ) + 1/2 = 1/2 by ring]
    rw [silenceScan_run dbThr minDur _ _ 0 (k - 1) (1/2)
      (by rw [hcsub]; linarith)
      (by
        intro i hi
        apply hlvl_sil
        have hc : ((i : ℚ)) < ((k - 1 : ℕ) : ℚ) := by exact_mod_cast hi
        rw [hcsub] at hc
        linarith)]
    rw [show (1:ℚ)/2 + ((k - 1 : ℕ) : ℚ) / 2 = (k : ℚ) / 2 by rw [hcsub]; ring]
  constructor
  · unfold detectSilence
    rw [hrun ((k : ℚ) / 2 + 1/2) (by linarith)]
    rw [silenceScan, dif_pos (by linarith : (k:ℚ)/2 < (k:ℚ)/2 + 1/2)]
    simp only [if_neg (hlvl_loud ((k:ℚ)/2) (lt_irrefl _)), min_self,
      sub_zero]
    rw [silenceScan, dif_neg (lt_irrefl ((k:ℚ)/2 + 1/2))]
    simp only [List.append_nil]
  · unfold detectSilence
    rw [hrun ((k : ℚ) / 2) (le_refl _)]
    rw [silenceScan, dif_neg (lt_irrefl ((k:ℚ)/2))]
    simp only [sub_zero]

/-- C7: in both detectors a run of qualifying frames/windows shorter than
`min_section_duration` is never emitted, and a run of duration exactly
`min_section_duration` is emitted — both when the run is closed by a
non-qualifying frame/window and when it is closed by end-of-stream.
Conjuncts: (i)/(ii) every emitted black/silence section has duration
`≥ min_section_duration`; (iii) a black run of exactly `min` duration is
emitted (both closings); (iv) a shorter black run is not; (v) a silent run of
exactly `min` duration is emitted (both closings); (vi) a shorter silent run
is not. -/
theorem claim7_run_emission (thr minDur fps dbThr : ℚ) (hfps : 0 < fps) :
    (∀ (startFrame : ℕ) (brightness : List ℚ),
      ∀ sec ∈ detectBlackFrames thr minDur fps startFrame brightness,
        minDur ≤ sec.end_seconds - sec.start_seconds) ∧
    (∀ (level : ℚ → ℚ) (clipStart clipEnd : ℚ),
      ∀ sec ∈ detectSilence dbThr minDur level clipStart clipEnd,
        minDur ≤ sec.end_seconds - sec.start_seconds) ∧
    (∀ (b nb : ℚ) (n : ℕ), b < thr → ¬ nb < thr → 0 < n →
      (n : ℚ) / fps = minDur →
      detectBlackFrames thr minDur fps 0 (List.replicate n b ++ [nb]) =
        [⟨0, (n : ℚ) / fps, DetectionMethod.black_frame,
          min 1 ((n : ℚ) / (fps * 2)),
          some ("Detected " ++ toString n ++ " black frames")⟩] ∧
      detectBlackFrames thr minDur fps 0 (List.replicate n b) =
        [⟨0, (n : ℚ) / fps, DetectionMethod.black_frame,
          min 1 ((n : ℚ) / (fps * 2)),
          some ("Detected " ++ toString n ++ " black frames")⟩]) ∧
    (∀ (b nb : ℚ) (n : ℕ), b < thr → ¬ nb < thr →
      (n : ℚ) / fps < minDur →
      detectBlackFrames thr minDur fps 0 (List.replicate n b ++ [nb]) = [] ∧
      detectBlackFrames thr minDur fps 0 (List.replicate n b) = []) ∧
    (∀ (sLvl lLvl : ℚ) (k : ℕ), sLvl < dbThr → ¬ lLvl < dbThr → 0 < k →
      (k : ℚ) / 2 = minDur →
      detectSilence dbThr minDur (stepLevel ((k : ℚ) / 2) sLvl lLvl) 0
          ((k : ℚ) / 2 + 1/2) =
        [⟨0, (k : ℚ) / 2, DetectionMethod.silence,
          min 1 (((k : ℚ) / 2) / 5), some "Silent section"⟩] ∧
      detectSilence dbThr minDur (stepLevel ((k : ℚ) / 2) sLvl lLvl) 0
          ((k : ℚ) / 2) =
        [⟨0, (k : ℚ) / 2, DetectionMethod.silence,
          min 1 (((k : ℚ) / 2) / 5), some "Silent section at end"⟩]) ∧
    (∀ (sLvl lLvl : ℚ) (k : ℕ), sLvl < dbThr → ¬ lLvl < dbThr → 0 < k →
      (k : ℚ) / 2 < minDur →
      detectSilence dbThr minDur (stepLevel ((k : ℚ) / 2) sLvl lLvl) 0
          ((k : ℚ) / 2 + 1/2) = [] ∧
      detectSilence dbThr minDur (stepLevel ((k : ℚ) / 2) sLvl lLvl) 0
          ((k : ℚ) / 2) = []) := by
  refine ⟨?_, ?_, ?_, ?_, ?_, ?_⟩
  · intro startFrame brightness
    exact blackScan_min_duration thr minDur fps brightness startFrame none 0
      (by intro st h; cases h)
  · intro level clipStart clipEnd
    exact silenceScan_min_duration dbThr minDur level clipEnd clipStart none
  · intro b nb n hb hnb hn hdur
    obtain ⟨h1, h2⟩ := detectBlackFrames_single_run thr minDur fps b nb hb hnb n hn
    rw [h1, h2, if_pos (le_of_eq hdur.symm)]
    exact ⟨rfl, rfl⟩
  · intro b nb n hb hnb hdur
    cases n with
    | zero =>
      constructor
      · show blackScan thr minDur fps ([] ++ [nb]) 0 none 0 = []
        rw [List.nil_append, blackScan, if_neg hnb, blackScan]
      · rfl
    | succ m =>
      obtain ⟨h1, h2⟩ := detectBlackFrames_single_run thr minDur fps b nb hb hnb
        (m + 1) (by omega)
      rw [h1, h2, if_neg (not_le.mpr hdur)]
      exact ⟨rfl, rfl⟩
  · intro sLvl lLvl k hsl hll hk hdur
    obtain ⟨h1, h2⟩ := detectSilence_single_run dbThr minDur sLvl lLvl hsl hll k hk
    rw [h1, h2, if_pos (le_of_eq hdur.symm), if_pos (le_of_eq hdur.symm)]
    exact ⟨rfl, rfl⟩
  · intro sLvl lLvl k hsl hll hk hdur
    obtain ⟨h1, h2⟩ := detectSilence_single_run dbThr minDur sLvl lLvl hsl hll k hk
    rw [h1, h2, if_neg (not_le.mpr hdur), if_neg (not_le.mpr hdur)]
    exact ⟨rfl, rfl⟩

/-- Witness for C7 with `min_section_duration = 1`, `fps = 2` (black frames)
and `0.5 s` windows (silence): a run of 2 black frames (exactly 1 s) is
emitted, a run of 1 black frame (0.5 s) is not; a run of 2 silent windows
(exactly 1 s) is emitted, a run of 1 silent window (0.5 s) is not. -/
theorem claim7_run_emission_witness :
    ((0:ℚ) < 2 ∧ (0:ℚ) < 20 ∧ ¬ (255:ℚ) < 20 ∧ (-120:ℚ) < -40 ∧
      ¬ (0:ℚ) < -40 ∧ ((2:ℕ) : ℚ) / 2 = 1 ∧ ((1:ℕ) : ℚ) / 2 < 1) ∧
    (detectBlackFrames 20 1 2 0 (List.replicate 2 0 ++ [255]) =
      [⟨0, ((2:ℕ) : ℚ) / 2, DetectionMethod.black_frame,
        min 1 (((2:ℕ) : ℚ) / (2 * 2)),
        some ("Detected " ++ toString (2:ℕ) ++ " black frames")⟩]) ∧
    (detectBlackFrames 20 1 2 0 (List.replicate 1 0 ++ [255]) = []) ∧
    (detectSilence (-40) 1 (stepLevel (((2:ℕ) : ℚ) / 2) (-120) 0) 0
        (((2:ℕ) : ℚ) / 2 + 1/2) =
      [⟨0, ((2:ℕ) : ℚ) / 2, DetectionMethod.silence,
        min 1 ((((2:ℕ) : ℚ) / 2) / 5), some "Silent section"⟩]) ∧
    (detectSilence (-40) 1 (stepLevel (((1:ℕ) : ℚ) / 2) (-120) 0) 0
        (((1:ℕ) : ℚ) / 2) = []) :=
  ⟨⟨by norm_num, by norm_num, by norm_num, by norm_num, by norm_num,
      by norm_num, by norm_num⟩,
    ((claim7_run_emission 20 1 2 (-40) (by norm_num)).2.2.1 0 255 2
      (by norm_num) (by norm_num) (by norm_num) (by norm_num)).1,
    ((claim7_run_emission 20 1 2 (-40) (by norm_num)).2.2.2.1 0 255 1
      (by norm_num) (by norm_num) (by norm_num)).1,
    ((claim7_run_emission 20 1 2 (-40) (by norm_num)).2.2.2.2.1 (-120) 0 2
      (by norm_num) (by norm_num) (by norm_num) (by norm_num)).1,
    ((claim7_run_emission 20 1 2 (-40) (by norm_num)).2.2.2.2.2 (-120) 0 1
      (by norm_num) (by norm_num) (by norm_num) (by norm_num)).2⟩

end HSG
